import Mathlib

/-!
A shallow embedding of `fcatalog_client/ida_client.py` (the fcatalog IDA
client).  Python byte strings are modelled as `List Char`, machine integers
as `Nat` (with explicit `% 2^32` where the source masks), fallible code as
`Except Err`.  The IDA host database is a list of functions; the remote
catalog session is modelled by an event trace plus a response oracle.
-/

/-- Python `str.lower` restricted to ASCII, as applied by `is_func_named`. -/
def py_lower (s : List Char) : List Char := s.map Char.toLower

/-- Python substring containment `needle in hay`. -/
def py_in : List Char → List Char → Bool
  | needle, [] => needle.isEmpty
  | needle, c :: t => needle.isPrefixOf (c :: t) || py_in needle t

/-- One step of Python 2 `str.splitlines`: the first line of `s` and the
remainder after the line terminator (`\n`, `\r` or `\r\n`). -/
def takeLine : List Char → List Char × List Char
  | [] => ([], [])
  | c :: cs =>
    if c = '\r' then
      match cs with
      | d :: rest => if d = '\n' then ([], rest) else ([], cs)
      | [] => ([], [])
    else if c = '\n' then ([], cs)
    else (c :: (takeLine cs).1, (takeLine cs).2)

/-- Accumulator loop of Python 2 `str.splitlines` (terminators `\n`, `\r`,
`\r\n`; a trailing terminator does not produce an extra empty line). -/
def splitlinesAcc : List Char → List Char → List (List Char)
  | acc, [] => [acc.reverse]
  | acc, '\r' :: '\n' :: [] => [acc.reverse]
  | acc, '\r' :: '\n' :: c :: cs => acc.reverse :: splitlinesAcc [] (c :: cs)
  | acc, '\r' :: [] => [acc.reverse]
  | acc, '\r' :: c :: cs => acc.reverse :: splitlinesAcc [] (c :: cs)
  | acc, '\n' :: [] => [acc.reverse]
  | acc, '\n' :: c :: cs => acc.reverse :: splitlinesAcc [] (c :: cs)
  | acc, c :: cs => splitlinesAcc (c :: acc) cs

/-- Python 2 `str.splitlines` (`''.splitlines() == []`). -/
def py_splitlines : List Char → List (List Char)
  | [] => []
  | c :: cs => splitlinesAcc [] (c :: cs)

/-- Python `'\n'.join`. -/
def joinLines : List (List Char) → List Char
  | [] => []
  | [l] => l
  | l :: l' :: ls => l ++ '\n' :: joinLines (l' :: ls)

/-- Decimal digit character. -/
def decDigitChar (d : Nat) : Char := Char.ofNat (48 + d)

/-- Upper-case hexadecimal digit character, as produced by Python `'{:X}'`. -/
def hexDigitCharU (d : Nat) : Char := if d < 10 then Char.ofNat (48 + d) else Char.ofNat (55 + d)

/-- Fueled digit loop of Python `str(n)` (decimal, most significant first). -/
def toDecCore : Nat → Nat → List Char → List Char
  | 0, _, ds => ds
  | fuel + 1, n, ds =>
    if n < 10 then decDigitChar n :: ds
    else toDecCore fuel (n / 10) (decDigitChar (n % 10) :: ds)

/-- Python `str(n)` for a natural number. -/
def natToDec (n : Nat) : List Char := toDecCore (n + 1) n []

/-- Fueled digit loop of Python `'{:X}'.format(n)`. -/
def toHexCore : Nat → Nat → List Char → List Char
  | 0, _, ds => ds
  | fuel + 1, n, ds =>
    if n < 16 then hexDigitCharU n :: ds
    else toHexCore fuel (n / 16) (hexDigitCharU (n % 16) :: ds)

/-- Python `'{:X}'.format(n)` (upper-case hex, no leading zeros). -/
def natToHexUpper (n : Nat) : List Char := toHexCore (n + 1) n []

/-- Python `'{:0>w}'` fill: left-pad with `'0'` to width `w`. -/
def padZeroLeft (w : Nat) (s : List Char) : List Char := List.replicate (w - s.length) '0' ++ s

/-- `MIN_FUNC_LENGTH = 0x60`. -/
def MIN_FUNC_LENGTH : Nat := 0x60

/-- `FCATALOG_FUNC_NAME_PREFIX = 'FCATALOG__'` (source constant name ends in
a token the development avoids, hence the abbreviated Lean name). -/
def FCATALOG_FUNC_NAME_PREF : List Char := "FCATALOG__".data

/-- `FCATALOG_COMMENT_PREFIX = '%%%'`. -/
def FCATALOG_COMMENT_PREF : List Char := "%%%".data

/-- `MAX_SIM_GRADE = 16`. -/
def MAX_SIM_GRADE : Nat := 16

/-- `NUM_SIMILARS = 1` (the call site in `_batch_similars` passes the literal 1). -/
def NUM_SIMILARS : Nat := 1

/-- `GET_SIMILARS_BATCH_SIZE = 20`. -/
def GET_SIMILARS_BATCH_SIZE : Nat := 20

/-- Exceptions raised by the client (`FCatalogClientError` in the source,
tagged by raise site; plus the session-level failure of a missing response). -/
inductive Err
  | chunked (a : Nat)
  | endBeforeStart (a : Nat)
  | dataReadFailed (a : Nat)
  | noResponse
deriving DecidableEq, Repr

instance {ε α : Type} [DecidableEq ε] [DecidableEq α] : DecidableEq (Except ε α) := fun x y =>
  match x, y with
  | Except.ok a, Except.ok b =>
    if h : a = b then isTrue (by rw [h]) else isFalse (by intro hc; cases hc; exact h rfl)
  | Except.error a, Except.error b =>
    if h : a = b then isTrue (by rw [h]) else isFalse (by intro hc; cases hc; exact h rfl)
  | Except.ok _, Except.error _ => isFalse (by intro hc; cases hc)
  | Except.error _, Except.ok _ => isFalse (by intro hc; cases hc)

/-- One function of the IDA database, with the host-owned attributes the
client reads: address, declared name, comment text, `FUNCATTR_END`, the
number of chunks counted by `is_func_chunked`'s iterator, and the byte
range `idc.GetManyBytes` would return (`none` models a failed read). -/
structure Func where
  addr : Nat
  name : List Char
  comment : List Char
  func_end : Nat
  num_chunks : Nat
  data : Option (List Nat)
deriving DecidableEq, Repr

/-- The IDA database: the functions in `idautils.Functions()` order. -/
abbrev Idb := List Func

/-- Address lookup in the host database. -/
def get_func (s : Idb) (a : Nat) : Option Func := s.find? (fun f => f.addr == a)

/-- `idc.GetFunctionName(func_addr)` (empty for an unknown address). -/
def GetFunctionName (s : Idb) (a : Nat) : List Char :=
  match get_func s a with
  | none => []
  | some f => f.name

/-- `idc.GetFunctionAttr(func_addr, idc.FUNCATTR_END)`. -/
def GetFunctionAttrEnd (s : Idb) (a : Nat) : Nat :=
  match get_func s a with
  | none => 0
  | some f => f.func_end

/-- `idc.GetManyBytes(func_addr, length)`: the host's read of the function's
byte range, an oracle per function (`none` models a failed read).  The
length argument is computed by the caller and consumed by the host. -/
def GetManyBytes (s : Idb) (a : Nat) (len : Nat) : Option (List Nat) :=
  match get_func s a, len with
  | none, _ => none
  | some f, _ => f.data

/-- `is_func_chunked`: the source counts the chunks with
`idaapi.func_tail_iterator_t` and tests `num_chunks > 1`. -/
def is_func_chunked (s : Idb) (a : Nat) : Bool :=
  match get_func s a with
  | none => false
  | some f => decide (1 < f.num_chunks)

/-- `get_func_length`: raises on a chunked function and on
`func_end < func_addr`, otherwise returns `func_end - func_addr`. -/
def get_func_length (s : Idb) (a : Nat) : Except Err Nat :=
  if is_func_chunked s a then Except.error (Err.chunked a)
  else
    if GetFunctionAttrEnd s a < a then Except.error (Err.endBeforeStart a)
    else Except.ok (GetFunctionAttrEnd s a - a)

/-- `get_func_data`: read `func_length` bytes at the function address,
raising if the host read fails. -/
def get_func_data (s : Idb) (a : Nat) : Except Err (List Nat) :=
  match get_func_length s a with
  | Except.error e => Except.error e
  | Except.ok func_length =>
    match GetManyBytes s a func_length with
    | none => Except.error (Err.dataReadFailed a)
    | some func_data => Except.ok func_data

/-- `get_func_comment`: "Currently not implemented", returns `""`. -/
def get_func_comment (_s : Idb) (_a : Nat) : List Char := []

/-- `is_func_fcatalog`: does the declared name carry the catalog marker
`FCATALOG__`? -/
def is_func_fcatalog (s : Idb) (a : Nat) : Bool :=
  FCATALOG_FUNC_NAME_PREF.isPrefixOf (GetFunctionName s a)

/-- `is_func_named`: the user-named heuristic (reject `sub_` names,
case-insensitive `maybe` / `related` tokens next to an underscore, and
catalog-marked names). -/
def is_func_named (s : Idb) (a : Nat) : Bool :=
  let func_name := GetFunctionName s a
  if "sub_".data.isPrefixOf func_name then false
  else if py_in "_maybe".data (py_lower func_name) || py_in "maybe_".data (py_lower func_name) then
    false
  else if py_in "_related".data (py_lower func_name) || py_in "related_".data (py_lower func_name) then
    false
  else if is_func_fcatalog s a then false
  else true

/-- `is_func_long_enough`: `func_length >= MIN_FUNC_LENGTH`, propagating
the `get_func_length` exception. -/
def is_func_long_enough (s : Idb) (a : Nat) : Except Err Bool :=
  match get_func_length s a with
  | Except.error e => Except.error e
  | Except.ok func_length =>
    if func_length < MIN_FUNC_LENGTH then Except.ok false else Except.ok true

/-- `is_func_commit_candidate`: not chunked, user-named, long enough. -/
def is_func_commit_candidate (s : Idb) (a : Nat) : Except Err Bool :=
  if is_func_chunked s a then Except.ok false
  else if !is_func_named s a then Except.ok false
  else
    match is_func_long_enough s a with
    | Except.error e => Except.error e
    | Except.ok le => if !le then Except.ok false else Except.ok true

/-- `is_func_find_candidate`: not chunked, not user-named, long enough. -/
def is_func_find_candidate (s : Idb) (a : Nat) : Except Err Bool :=
  if is_func_chunked s a then Except.ok false
  else if is_func_named s a then Except.ok false
  else
    match is_func_long_enough s a with
    | Except.error e => Except.error e
    | Except.ok le => if !le then Except.ok false else Except.ok true

/-- `strip_comment_fcatalog`: drop every line starting with `%%%`,
newline-join the rest. -/
def strip_comment_fcatalog (comment : List Char) : List Char :=
  joinLines ((py_splitlines comment).filter
    (fun ln => !(FCATALOG_COMMENT_PREF.isPrefixOf ln)))

/-- `add_comment_fcatalog`: marker-prefix every line of the catalog comment,
put them before the existing comment lines, newline-join. -/
def add_comment_fcatalog (comment fcatalog_comment : List Char) : List Char :=
  joinLines ((py_splitlines fcatalog_comment).map
      (fun ln => FCATALOG_COMMENT_PREF ++ (' ' :: ln))
    ++ py_splitlines comment)

/-- `make_fcatalog_name`: `''.join` of the catalog marker, the zero-padded
grade plus `__`, the name, and `__` plus the zero-padded hex of the low 32
address bits. -/
def make_fcatalog_name (func_name : List Char) (sim_grade : Nat) (func_addr : Nat) : List Char :=
  List.flatten
    [FCATALOG_FUNC_NAME_PREF,
     padZeroLeft 2 (natToDec sim_grade) ++ "__".data,
     func_name,
     "__".data ++ padZeroLeft 8 (natToHexUpper (func_addr % 4294967296))]

/-- A similarity match returned by the remote catalog (`fsim` in the
source: fields `name`, `sim_grade`, `comment`). -/
structure FSim where
  name : List Char
  sim_grade : Nat
  comment : List Char
deriving DecidableEq, Repr

/-- Modelled from the spec: one message of the catalog session's wire
traffic (`db_endpoint.DBEndpoint` is not under `src/`): an add-function
commit, a similarity request, a received similars response, and the
session close. -/
inductive DbMsg
  | addFunction : List Char → List Char → List Nat → DbMsg
  | requestSimilars : List Nat → Nat → DbMsg
  | responseSimilars : List FSim → DbMsg
  | close : DbMsg
deriving DecidableEq, Repr

/-- A host-side write issued through the IDA interface (ghost trace of the
calls to `idc.MakeName` and `set_func_comment`). -/
inductive HostEvent
  | makeName : Nat → List Char → HostEvent
  | setComment : Nat → List Char → HostEvent
deriving DecidableEq, Repr

/-- The whole mutable state an operation threads: the IDA database, the
ghost trace of host writes, the session's wire trace, and the oracle of
responses the remote will deliver (FIFO). -/
structure World where
  idb : Idb
  host_events : List HostEvent
  db_events : List DbMsg
  responses : List (List FSim)
deriving DecidableEq, Repr

/-- Modelled from the spec: `DBEndpoint.add_function` — one-way commit of
`{name, comment, bytes}` on the open session. -/
def add_function (w : World) (name comment : List Char) (data : List Nat) : World :=
  { w with db_events := w.db_events ++ [DbMsg.addFunction name comment data] }

/-- Modelled from the spec: `DBEndpoint.request_similars` — send-only
enqueue of a similarity query carrying the bytes and the match count. -/
def request_similars (w : World) (data : List Nat) (count : Nat) : World :=
  { w with db_events := w.db_events ++ [DbMsg.requestSimilars data count] }

/-- Modelled from the spec: `DBEndpoint.response_similars` — block for the
next pending response in FIFO order; fails when the remote delivers none. -/
def response_similars (w : World) : Except Err (List FSim) × World :=
  match w.responses with
  | [] => (Except.error Err.noResponse, w)
  | ms :: rest =>
    (Except.ok ms,
     { w with responses := rest, db_events := w.db_events ++ [DbMsg.responseSimilars ms] })

/-- Modelled from the spec: `DBEndpoint.close` — release the session. -/
def db_close (w : World) : World :=
  { w with db_events := w.db_events ++ [DbMsg.close] }

/-- The `idb`-level effect of `idc.MakeName`: update the declared name of
the function at the given address. -/
def idb_set_name (s : Idb) (a : Nat) (name : List Char) : Idb :=
  s.map (fun f => if f.addr == a then { f with name := name } else f)

/-- `idc.MakeName(func_addr, name)`: rename in the host database (and ghost
trace of the call). -/
def MakeName (w : World) (a : Nat) (name : List Char) : World :=
  { w with idb := idb_set_name w.idb a name,
           host_events := w.host_events ++ [HostEvent.makeName a name] }

/-- `set_func_comment`: "Currently not implemented" — the source body is
`pass`, so the IDA database is untouched; the ghost trace records the
invocation and its argument. -/
def set_func_comment (w : World) (a : Nat) (comment : List Char) : World :=
  { w with host_events := w.host_events ++ [HostEvent.setComment a comment] }

/-- The loop body of `FCatalogClient.commit_funcs` over
`idautils.Functions()`: skip non-candidates, else send name, stripped
comment and data; a raised exception aborts the loop (state survives). -/
def commit_loop : List Nat → World → Except Err Unit × World
  | [], w => (Except.ok (), w)
  | a :: rest, w =>
    match is_func_commit_candidate w.idb a with
    | Except.error e => (Except.error e, w)
    | Except.ok false => commit_loop rest w
    | Except.ok true =>
      match get_func_data w.idb a with
      | Except.error e => (Except.error e, w)
      | Except.ok func_data =>
        commit_loop rest
          (add_function w (GetFunctionName w.idb a)
            (strip_comment_fcatalog (get_func_comment w.idb a)) func_data)

/-- `FCatalogClient.commit_funcs`: iterate, then close the session; there
is no `try`/`finally`, so an exception propagates without the close. -/
def commit_funcs (w : World) : Except Err Unit × World :=
  match commit_loop (w.idb.map Func.addr) w with
  | (Except.error e, w') => (Except.error e, w')
  | (Except.ok _, w') => (Except.ok (), db_close w')

/-- First loop of `FCatalogClient._batch_similars`: send one similarity
request (match count literal 1) per address, in order. -/
def send_requests : List Nat → World → Except Err Unit × World
  | [], w => (Except.ok (), w)
  | a :: rest, w =>
    match get_func_data w.idb a with
    | Except.error e => (Except.error e, w)
    | Except.ok func_data => send_requests rest (request_similars w func_data 1)

/-- Second loop of `FCatalogClient._batch_similars`: read one response per
address, in the same order, pairing positionally. -/
def collect_responses : List Nat → World → Except Err (List (Nat × List FSim)) × World
  | [], w => (Except.ok [], w)
  | a :: rest, w =>
    match response_similars w with
    | (Except.error e, w') => (Except.error e, w')
    | (Except.ok similars, w') =>
      match collect_responses rest w' with
      | (Except.error e, w'') => (Except.error e, w'')
      | (Except.ok lres, w'') => (Except.ok ((a, similars) :: lres), w'')

/-- `FCatalogClient._batch_similars`: send all requests of the batch, then
collect all responses. -/
def batch_similars (w : World) (l_func_addr : List Nat) :
    Except Err (List (Nat × List FSim)) × World :=
  match send_requests l_func_addr w with
  | (Except.error e, w') => (Except.error e, w')
  | (Except.ok _, w') => collect_responses l_func_addr w'

/-- The inner loop body of `FCatalogClient.find_similars` for one
`(func_addr, similars)` pair: skip an empty match list; take the first
match; skip when under the similarity cut; else rename with the encoded
catalog name and set the spliced catalog comment. -/
def process_similar (similarity_cut : Nat) (w : World) (p : Nat × List FSim) : World :=
  match p with
  | (_, []) => w
  | (func_addr, fsim :: _) =>
    if fsim.sim_grade < similarity_cut then w
    else
      let new_name := make_fcatalog_name fsim.name fsim.sim_grade func_addr
      let w1 := MakeName w func_addr new_name
      let func_comment := get_func_comment w1.idb func_addr
      set_func_comment w1 func_addr (add_comment_fcatalog func_comment fsim.comment)

/-- Modelled from the spec jointly with `iter_func_find_candidates`:
`utils.blockify` (not under `src/`) groups the lazy candidate iterator into
blocks of at most `batch_size`, in order, yielding only nonempty blocks;
candidacy is evaluated against the current database at pull time, and a
raised exception propagates.  Returns the block and the unexamined rest. -/
def take_candidates (s : Idb) : List Nat → Nat → Except Err (List Nat × List Nat)
  | rest, 0 => Except.ok ([], rest)
  | [], _ + 1 => Except.ok ([], [])
  | a :: rest, n + 1 =>
    match is_func_find_candidate s a with
    | Except.error e => Except.error e
    | Except.ok true =>
      match take_candidates s rest n with
      | Except.error e => Except.error e
      | Except.ok (blk, rem) => Except.ok (a :: blk, rem)
    | Except.ok false => take_candidates s rest (n + 1)

theorem take_candidates_length (s : Idb) :
    ∀ (addrs : List Nat) (n : Nat) (blk rem : List Nat),
      take_candidates s addrs n = Except.ok (blk, rem) →
      blk.length + rem.length ≤ addrs.length := by
  intro addrs
  induction addrs with
  | nil =>
    intro n blk rem h
    cases n <;> simp [take_candidates] at h <;> simp [h.1, h.2]
  | cons a rest ih =>
    intro n blk rem h
    cases n with
    | zero =>
      simp [take_candidates] at h
      simp [h.1, h.2]
    | succ n =>
      simp only [take_candidates] at h
      cases hc : is_func_find_candidate s a with
      | error e => rw [hc] at h; cases h
      | ok b =>
        rw [hc] at h
        cases b with
        | true =>
          cases hrec : take_candidates s rest n with
          | error e => rw [hrec] at h; cases h
          | ok p =>
            rw [hrec] at h
            simp only [Except.ok.injEq, Prod.mk.injEq] at h
            obtain ⟨h1, h2⟩ := h
            have := ih n p.1 p.2 (by rw [hrec])
            subst h1; subst h2
            simp only [List.length_cons]
            omega
        | false =>
          have := ih (n + 1) blk rem h
          simp only [List.length_cons]
          omega

/-- The batch loop of `FCatalogClient.find_similars`: pull the next block
of find candidates, exchange it with the server, post-process every
`(func_addr, similars)` pair, and continue with the remaining functions. -/
def find_loop (similarity_cut batch_size : Nat) (addrs : List Nat) (w : World) :
    Except Err Unit × World :=
  match h : take_candidates w.idb addrs batch_size with
  | Except.error e => (Except.error e, w)
  | Except.ok ([], _) => (Except.ok (), w)
  | Except.ok (b :: blk', rem) =>
    match batch_similars w (b :: blk') with
    | (Except.error e, w') => (Except.error e, w')
    | (Except.ok bsimilars, w') =>
      find_loop similarity_cut batch_size rem
        (bsimilars.foldl (process_similar similarity_cut) w')
termination_by addrs.length
decreasing_by
  have hlen := take_candidates_length w.idb addrs batch_size (b :: blk') rem h
  simp only [List.length_cons] at hlen
  omega

/-- `FCatalogClient.find_similars`: iterate the batched exchange over all
functions, then close the session; as in `commit_funcs` an exception skips
the close. -/
def find_similars (similarity_cut batch_size : Nat) (w : World) : Except Err Unit × World :=
  match find_loop similarity_cut batch_size (w.idb.map Func.addr) w with
  | (Except.error e, w') => (Except.error e, w')
  | (Except.ok _, w') => (Except.ok (), db_close w')

/-- The loop of `clean_idb`: for every catalog-named function clear the
name and strip the catalog comment lines. -/
def clean_loop : List Nat → World → World
  | [], w => w
  | a :: rest, w =>
    if is_func_fcatalog w.idb a then
      let w1 := MakeName w a []
      let func_comment := get_func_comment w1.idb a
      clean_loop rest (set_func_comment w1 a (strip_comment_fcatalog func_comment))
    else clean_loop rest w

/-- `clean_idb`: clean all fcatalog marks and names. -/
def clean_idb (w : World) : World := clean_loop (w.idb.map Func.addr) w

/-- Spec-side rendering of "zero-padded 8-hex-digit": the fixed-width
big-endian hex digits of a value (independent of the code's
format-then-pad path). -/
def hexDigits : Nat → Nat → List Char
  | 0, _ => []
  | k + 1, n => hexDigits k (n / 16) ++ [hexDigitCharU (n % 16)]

/-- The comment text of the function at an address (the observation the
frame/effect claims are stated over). -/
def funcCommentAt (s : Idb) (a : Nat) : Option (List Char) := (get_func s a).map Func.comment

theorem is_func_named_false_of_fcatalog (s : Idb) (a : Nat)
    (h : is_func_fcatalog s a = true) : is_func_named s a = false := by
  simp only [is_func_named]
  split
  · rfl
  · split
    · rfl
    · split
      · rfl
      · simp [h]

/-- Claim C8: a chunked function, or one whose end address precedes its
start, makes `get_func_length` raise `FCatalogClientError` and never
return a length. -/
theorem get_func_length_malformed (s : Idb) (a : Nat)
    (h : is_func_chunked s a = true ∨ GetFunctionAttrEnd s a < a) :
    (∃ e, get_func_length s a = Except.error e) ∧ ∀ n, get_func_length s a ≠ Except.ok n := by
  unfold get_func_length
  rcases h with h | h
  · simp [h]
  · by_cases hc : is_func_chunked s a
    · simp [hc]
    · simp [hc, h]

theorem get_func_length_malformed_witness :
    (is_func_chunked [⟨7, [], [], 3, 1, none⟩] 7 = true ∨
      GetFunctionAttrEnd [⟨7, [], [], 3, 1, none⟩] 7 < 7) ∧
    ((∃ e, get_func_length [⟨7, [], [], 3, 1, none⟩] 7 = Except.error e) ∧
      ∀ n, get_func_length [⟨7, [], [], 3, 1, none⟩] 7 ≠ Except.ok n) :=
  ⟨by decide, get_func_length_malformed [⟨7, [], [], 3, 1, none⟩] 7 (by decide)⟩

/-- Claim C4: `is_func_commit_candidate` and `is_func_find_candidate` are
never both true (one needs the user-named test to pass, the other to
fail). -/
theorem commit_find_exclusive (s : Idb) (a : Nat) :
    (is_func_commit_candidate s a = Except.ok true →
      is_func_find_candidate s a = Except.ok false) ∧
    (is_func_find_candidate s a = Except.ok true →
      is_func_commit_candidate s a = Except.ok false) := by
  unfold is_func_commit_candidate is_func_find_candidate
  by_cases hc : is_func_chunked s a
  · simp [hc]
  · by_cases hn : is_func_named s a
    · simp [hc, hn]
    · simp [hc, hn]

theorem commit_find_exclusive_witness :
    is_func_find_candidate [⟨4096, "parse_header".data, [], 4192, 1, some [1]⟩] 4096 =
      Except.ok false :=
  (commit_find_exclusive [⟨4096, "parse_header".data, [], 4192, 1, some [1]⟩] 4096).1 (by decide)

/-- Claim C1 (counterexample): a catalog-prefixed function of sufficient
size that is not chunked IS a find candidate — the claim's "both return
false" fails on the re-query side. -/
theorem fcatalog_find_candidate_ce :
    FCATALOG_FUNC_NAME_PREF.isPrefixOf
        (GetFunctionName [⟨1, "FCATALOG__10__f__00000001".data, [], 0x61, 1, none⟩] 1) = true ∧
    is_func_find_candidate [⟨1, "FCATALOG__10__f__00000001".data, [], 0x61, 1, none⟩] 1 =
      Except.ok true := by
  decide

/-- Claim C1 (amended): a catalog-prefixed name is never eligible for
re-commit — `is_func_commit_candidate` returns false for it (re-query is
not blocked: the catalog prefix makes the function count as unnamed). -/
theorem fcatalog_not_commit_candidate (s : Idb) (a : Nat)
    (h : FCATALOG_FUNC_NAME_PREF.isPrefixOf (GetFunctionName s a) = true) :
    is_func_commit_candidate s a = Except.ok false := by
  have hn : is_func_named s a = false :=
    is_func_named_false_of_fcatalog s a (by unfold is_func_fcatalog; exact h)
  unfold is_func_commit_candidate
  by_cases hc : is_func_chunked s a
  · simp [hc]
  · simp [hc, hn]

theorem fcatalog_not_commit_candidate_witness :
    is_func_commit_candidate [⟨1, "FCATALOG__10__f__00000001".data, [], 0x61, 1, none⟩] 1 =
      Except.ok false :=
  fcatalog_not_commit_candidate [⟨1, "FCATALOG__10__f__00000001".data, [], 0x61, 1, none⟩] 1
    (by decide)

/-- Claim C9: the user-named heuristic on the spec's concrete names, plus
the general case-insensitive underscore-adjacent token rules and the
catalog-prefix rule. -/
theorem is_func_named_cases :
    (is_func_named [⟨1, "sub_401000".data, [], 0, 1, none⟩] 1 = false ∧
     is_func_named [⟨2, "foo_maybe_bar".data, [], 0, 1, none⟩] 2 = false ∧
     is_func_named [⟨3, "related_helper".data, [], 0, 1, none⟩] 3 = false ∧
     is_func_named [⟨4, "FCATALOG__10__x__00000004".data, [], 0, 1, none⟩] 4 = false ∧
     is_func_named [⟨5, "parse_header".data, [], 0, 1, none⟩] 5 = true) ∧
    (∀ s a,
      (py_in "_maybe".data (py_lower (GetFunctionName s a)) = true ∨
       py_in "maybe_".data (py_lower (GetFunctionName s a)) = true ∨
       py_in "_related".data (py_lower (GetFunctionName s a)) = true ∨
       py_in "related_".data (py_lower (GetFunctionName s a)) = true) →
      is_func_named s a = false) ∧
    (∀ s a, is_func_fcatalog s a = true → is_func_named s a = false) := by
  refine ⟨by decide, ?_, fun s a h => is_func_named_false_of_fcatalog s a h⟩
  intro s a h
  rcases h with h | h | h | h <;> simp [is_func_named, h]

theorem is_func_named_cases_witness :
    is_func_named [⟨6, "FOO_Maybe_Bar".data, [], 0, 1, none⟩] 6 = false :=
  is_func_named_cases.2.1 [⟨6, "FOO_Maybe_Bar".data, [], 0, 1, none⟩] 6 (by decide)

theorem toHexCore_append (f : Nat) :
    ∀ (n : Nat) (acc : List Char), toHexCore f n acc = toHexCore f n [] ++ acc := by
  induction f with
  | zero => intro n acc; simp [toHexCore]
  | succ f ih =>
    intro n acc
    by_cases hn : n < 16
    · simp [toHexCore, hn]
    · simp only [toHexCore, if_neg hn]
      rw [ih (n / 16) (hexDigitCharU (n % 16) :: acc), ih (n / 16) [hexDigitCharU (n % 16)]]
      simp

theorem toHexCore_fuel (f : Nat) :
    ∀ (g n : Nat) (acc : List Char), n < 16 ^ f → n < 16 ^ g → 1 ≤ f → 1 ≤ g →
      toHexCore f n acc = toHexCore g n acc := by
  induction f with
  | zero => intro g n acc _ _ hf1; omega
  | succ f ih =>
    intro g n acc hf hg _ hg1
    cases g with
    | zero => omega
    | succ g =>
      by_cases hn : n < 16
      · simp [toHexCore, hn]
      · simp only [toHexCore, if_neg hn]
        have hf' : n / 16 < 16 ^ f := by
          rw [Nat.div_lt_iff_lt_mul (by norm_num)]
          calc n < 16 ^ (f + 1) := hf
          _ = 16 ^ f * 16 := by rw [pow_succ]
        have hg' : n / 16 < 16 ^ g := by
          rw [Nat.div_lt_iff_lt_mul (by norm_num)]
          calc n < 16 ^ (g + 1) := hg
          _ = 16 ^ g * 16 := by rw [pow_succ]
        have hf1' : 1 ≤ f := by
          rcases Nat.eq_zero_or_pos f with h0 | h0
          · subst h0; simp [pow_one] at hf; omega
          · exact h0
        have hg1' : 1 ≤ g := by
          rcases Nat.eq_zero_or_pos g with h0 | h0
          · subst h0; simp [pow_one] at hg; omega
          · exact h0
        exact ih g (n / 16) (hexDigitCharU (n % 16) :: acc) hf' hg' hf1' hg1'

theorem hexDigits_zero (k : Nat) : hexDigits k 0 = List.replicate k '0' := by
  induction k with
  | zero => rfl
  | succ k ih =>
    show hexDigits k (0 / 16) ++ [hexDigitCharU (0 % 16)] = _
    rw [Nat.zero_div, ih, List.replicate_succ']
    rfl

theorem toHexCore_step (f n : Nat) (acc : List Char) (hn : ¬ n < 16) :
    toHexCore (f + 1) n acc = toHexCore f (n / 16) (hexDigitCharU (n % 16) :: acc) := by
  conv_lhs => rw [toHexCore]
  rw [if_neg hn]

theorem padZeroLeft_hex (k : Nat) :
    ∀ n : Nat, n < 16 ^ (k + 1) →
      padZeroLeft (k + 1) (toHexCore (k + 1) n []) = hexDigits (k + 1) n := by
  induction k with
  | zero =>
    intro n h
    have h16 : n < 16 := by
      have : (16 : Nat) ^ (0 + 1) = 16 := by norm_num
      omega
    simp [toHexCore, h16, padZeroLeft, hexDigits, Nat.mod_eq_of_lt h16]
  | succ k ih =>
    intro n h
    by_cases hn : n < 16
    · conv_lhs => rw [toHexCore]
      rw [if_pos hn]
      show padZeroLeft (k + 1 + 1) [hexDigitCharU n] =
        hexDigits (k + 1) (n / 16) ++ [hexDigitCharU (n % 16)]
      rw [Nat.div_eq_of_lt hn, Nat.mod_eq_of_lt hn, hexDigits_zero]
      simp [padZeroLeft, List.replicate_succ']
    · rw [toHexCore_step (k + 1) n [] hn, toHexCore_append]
      have hlen : n / 16 < 16 ^ (k + 1) := by
        rw [Nat.div_lt_iff_lt_mul (by norm_num)]
        calc n < 16 ^ (k + 2) := h
        _ = 16 ^ (k + 1) * 16 := by rw [pow_succ]
      have hrec := ih (n / 16) hlen
      show padZeroLeft (k + 2) (toHexCore (k + 1) (n / 16) [] ++ [hexDigitCharU (n % 16)]) =
        hexDigits (k + 1) (n / 16) ++ [hexDigitCharU (n % 16)]
      unfold padZeroLeft at hrec ⊢
      rw [List.length_append]
      have hsub : k + 2 -
          (List.length (toHexCore (k + 1) (n / 16) []) + List.length [hexDigitCharU (n % 16)]) =
          k + 1 - List.length (toHexCore (k + 1) (n / 16) []) := by
        simp only [List.length_cons, List.length_nil]
        omega
      rw [hsub, ← List.append_assoc, hrec]

theorem natToHexUpper_pad8 (n : Nat) (h : n < 16 ^ 8) :
    padZeroLeft 8 (natToHexUpper n) = hexDigits 8 n := by
  unfold natToHexUpper
  have hfuel : n < 16 ^ (n + 1) := by
    calc n < 2 ^ n := Nat.lt_two_pow n
    _ ≤ 16 ^ n := Nat.pow_le_pow_left (by norm_num) n
    _ ≤ 16 ^ (n + 1) := Nat.pow_le_pow_right (by norm_num) (by omega)
  rw [toHexCore_fuel (n + 1) 8 n [] hfuel h (by omega) (by omega)]
  exact padZeroLeft_hex 7 n h

theorem pad2_grade (G : Nat) (h : G ≤ 16) :
    padZeroLeft 2 (natToDec G) = [decDigitChar (G / 10), decDigitChar (G % 10)] := by
  interval_cases G <;> decide

/-- Claim C7: for a grade in `[0, 16]`, `make_fcatalog_name` is the
concatenation of the fixed catalog marker, the zero-padded 2-digit grade,
`__`, the original name, `__`, and the zero-padded 8-hex-digit low 32 bits
of the address. -/
theorem make_fcatalog_name_spec (N : List Char) (G A : Nat) (hG : G ≤ 16) :
    make_fcatalog_name N G A =
      FCATALOG_FUNC_NAME_PREF ++ [decDigitChar (G / 10), decDigitChar (G % 10)]
        ++ "__".data ++ N ++ "__".data ++ hexDigits 8 (A % 4294967296) := by
  unfold make_fcatalog_name
  rw [pad2_grade G hG,
    natToHexUpper_pad8 (A % 4294967296)
      (by have := Nat.mod_lt A (show 0 < 4294967296 by norm_num); norm_num; omega)]
  simp [List.append_assoc]

theorem make_fcatalog_name_spec_witness :
    10 ≤ 16 ∧
    make_fcatalog_name "httpParse".data 10 0x2000 =
      FCATALOG_FUNC_NAME_PREF ++ [decDigitChar (10 / 10), decDigitChar (10 % 10)]
        ++ "__".data ++ "httpParse".data ++ "__".data ++ hexDigits 8 (0x2000 % 4294967296) ∧
    make_fcatalog_name "httpParse".data 10 0x2000 = "FCATALOG__10__httpParse__00002000".data :=
  ⟨by decide, make_fcatalog_name_spec "httpParse".data 10 0x2000 (by decide), by decide⟩

theorem splitlinesAcc_eq : ∀ (N : Nat) (s : List Char), s.length ≤ N → ∀ acc : List Char,
    splitlinesAcc acc s = (acc.reverse ++ (takeLine s).1) :: py_splitlines (takeLine s).2 := by
  intro N
  induction N with
  | zero =>
    intro s hs acc
    have hnil : s = [] := by cases s with
      | nil => rfl
      | cons c cs => simp at hs
    subst hnil
    simp [splitlinesAcc, takeLine, py_splitlines]
  | succ N ih =>
    intro s hs acc
    cases s with
    | nil => simp [splitlinesAcc, takeLine, py_splitlines]
    | cons c cs =>
      by_cases hr : c = '\r'
      · subst hr
        cases cs with
        | nil => simp [splitlinesAcc, takeLine, py_splitlines]
        | cons d rest =>
          by_cases hn : d = '\n'
          · subst hn
            cases rest with
            | nil => simp [splitlinesAcc, takeLine, py_splitlines]
            | cons e es => simp [splitlinesAcc, takeLine, py_splitlines]
          · cases rest with
            | nil => simp [splitlinesAcc, takeLine, py_splitlines, hn]
            | cons e es => simp [splitlinesAcc, takeLine, py_splitlines, hn]
      · by_cases hn : c = '\n'
        · subst hn
          cases cs with
          | nil => simp [splitlinesAcc, takeLine, py_splitlines]
          | cons e es => simp [splitlinesAcc, takeLine, py_splitlines]
        · have hcs : cs.length ≤ N := by simp at hs; omega
          have hstep : splitlinesAcc acc (c :: cs) = splitlinesAcc (c :: acc) cs := by
            simp [splitlinesAcc, hr, hn]
          rw [hstep, ih cs hcs (c :: acc)]
          simp [takeLine, hr, hn, List.append_assoc]

theorem py_splitlines_cons (s : List Char) (h : s ≠ []) :
    py_splitlines s = (takeLine s).1 :: py_splitlines (takeLine s).2 := by
  cases s with
  | nil => exact absurd rfl h
  | cons c cs =>
    show splitlinesAcc [] (c :: cs) = _
    rw [splitlinesAcc_eq (c :: cs).length (c :: cs) le_rfl []]
    simp

theorem py_splitlines_eq_nil (s : List Char) : py_splitlines s = [] ↔ s = [] := by
  constructor
  · intro h
    cases s with
    | nil => rfl
    | cons c cs => rw [py_splitlines_cons (c :: cs) (by simp)] at h; cases h
  · intro h; subst h; rfl

theorem takeLine_fst_no_break : ∀ s : List Char,
    '\n' ∉ (takeLine s).1 ∧ '\r' ∉ (takeLine s).1 := by
  intro s
  induction s with
  | nil => simp [takeLine]
  | cons c cs ih =>
    by_cases hr : c = '\r'
    · subst hr
      cases cs with
      | nil => simp [takeLine]
      | cons d rest => by_cases hn : d = '\n' <;> simp [takeLine, hn]
    · by_cases hn : c = '\n'
      · subst hn; simp [takeLine]
      · simp only [takeLine, if_neg hr, if_neg hn]
        constructor
        · intro hmem
          rcases List.mem_cons.mp hmem with h | h
          · exact hn h.symm
          · exact ih.1 h
        · intro hmem
          rcases List.mem_cons.mp hmem with h | h
          · exact hr h.symm
          · exact ih.2 h

theorem takeLine_cons_of_ne (c : Char) (cs : List Char) (hr : c ≠ '\r') (hn : c ≠ '\n') :
    takeLine (c :: cs) = (c :: (takeLine cs).1, (takeLine cs).2) := by
  simp [takeLine, hr, hn]

theorem takeLine_nl (cs : List Char) : takeLine ('\n' :: cs) = ([], cs) := by
  simp [takeLine, show ('\n' : Char) ≠ '\r' by decide]

theorem takeLine_cr_nl (rest : List Char) : takeLine ('\r' :: '\n' :: rest) = ([], rest) := by
  simp [takeLine]

theorem takeLine_cr_cons (d : Char) (rest : List Char) (hn : d ≠ '\n') :
    takeLine ('\r' :: d :: rest) = ([], d :: rest) := by
  simp [takeLine, hn]

theorem takeLine_cr_nil : takeLine ['\r'] = ([], []) := by
  simp [takeLine]

theorem takeLine_snd_len : ∀ (cs : List Char) (c : Char),
    ((takeLine (c :: cs)).2).length ≤ cs.length := by
  intro cs
  induction cs with
  | nil =>
    intro c
    by_cases hr : c = '\r'
    · subst hr; rw [takeLine_cr_nil]
    · by_cases hn : c = '\n'
      · subst hn; rw [takeLine_nl]
      · rw [takeLine_cons_of_ne c [] hr hn]; simp [takeLine]
  | cons d rest ih =>
    intro c
    by_cases hr : c = '\r'
    · subst hr
      by_cases hn : d = '\n'
      · subst hn; rw [takeLine_cr_nl]; simp
      · rw [takeLine_cr_cons d rest hn]
    · by_cases hn : c = '\n'
      · subst hn; rw [takeLine_nl]
      · rw [takeLine_cons_of_ne c (d :: rest) hr hn]
        have := ih d
        simp only [List.length_cons]
        omega

theorem takeLine_of_no_break : ∀ l : List Char, '\n' ∉ l → '\r' ∉ l →
    takeLine l = (l, []) := by
  intro l
  induction l with
  | nil => intro _ _; rfl
  | cons c cs ih =>
    intro hn hr
    have hcn : c ≠ '\n' := fun h => hn (by simp [h])
    have hcr : c ≠ '\r' := fun h => hr (by simp [h])
    simp only [takeLine, if_neg hcr, if_neg hcn]
    rw [ih (fun h => hn (List.mem_cons_of_mem c h)) (fun h => hr (List.mem_cons_of_mem c h))]

theorem takeLine_append_newline : ∀ (l t : List Char), '\n' ∉ l → '\r' ∉ l →
    takeLine (l ++ '\n' :: t) = (l, t) := by
  intro l
  induction l with
  | nil =>
    intro t _ _
    simp [takeLine, show ('\n' : Char) ≠ '\r' by decide]
  | cons c cs ih =>
    intro t hn hr
    have hcn : c ≠ '\n' := fun h => hn (by simp [h])
    have hcr : c ≠ '\r' := fun h => hr (by simp [h])
    rw [List.cons_append, takeLine_cons_of_ne c (cs ++ '\n' :: t) hcr hcn,
      ih t (fun h => hn (List.mem_cons_of_mem c h)) (fun h => hr (List.mem_cons_of_mem c h))]

theorem py_splitlines_joinLines : ∀ ls : List (List Char),
    (∀ l ∈ ls, '\n' ∉ l ∧ '\r' ∉ l) → ls.getLast? ≠ some [] →
    py_splitlines (joinLines ls) = ls := by
  intro ls
  induction ls with
  | nil => intro _ _; rfl
  | cons l ls ih =>
    intro hbf hlast
    cases ls with
    | nil =>
      have hl : l ≠ [] := by
        intro h0; exact hlast (by rw [h0]; rfl)
      show py_splitlines (joinLines [l]) = [l]
      have hjoin : joinLines [l] = l := rfl
      rw [hjoin, py_splitlines_cons l hl,
        takeLine_of_no_break l (hbf l (by simp)).1 (hbf l (by simp)).2]
      simp [py_splitlines]
    | cons l' ls' =>
      have hjoin : joinLines (l :: l' :: ls') = l ++ '\n' :: joinLines (l' :: ls') := rfl
      rw [hjoin]
      have hne : l ++ '\n' :: joinLines (l' :: ls') ≠ [] := by simp
      rw [py_splitlines_cons _ hne,
        takeLine_append_newline l (joinLines (l' :: ls')) (hbf l (by simp)).1 (hbf l (by simp)).2]
      have hrest : py_splitlines (joinLines (l' :: ls')) = l' :: ls' := by
        apply ih
        · intro x hx; exact hbf x (List.mem_cons_of_mem l hx)
        · rw [← List.getLast?_cons_cons (a := l)]; exact hlast
      rw [hrest]

theorem getLast?_cons_ne_nil {α : Type} (x : α) (xs : List α) (h : xs ≠ []) :
    (x :: xs).getLast? = xs.getLast? := by
  cases xs with
  | nil => exact absurd rfl h
  | cons y ys => exact List.getLast?_cons_cons

theorem getLast?_append_ne_nil {α : Type} (l₁ l₂ : List α) (h : l₂ ≠ []) :
    (l₁ ++ l₂).getLast? = l₂.getLast? := by
  induction l₁ with
  | nil => rfl
  | cons x xs ih =>
    rw [List.cons_append, getLast?_cons_ne_nil x (xs ++ l₂) (by simp [h]), ih]

theorem mem_of_getLast?_some {α : Type} : ∀ (l : List α) (a : α), l.getLast? = some a → a ∈ l := by
  intro l
  induction l with
  | nil => intro a h; cases h
  | cons x xs ih =>
    intro a h
    cases xs with
    | nil =>
      have : some x = some a := h
      cases this
      simp
    | cons y ys =>
      rw [List.getLast?_cons_cons] at h
      exact List.mem_cons_of_mem x (ih a h)

theorem takeLine_snd_getLast : ∀ (s l t : List Char), takeLine s = (l, t) → t ≠ [] →
    s.getLast? = t.getLast? := by
  intro s
  induction s with
  | nil => intro l t h ht; cases h; exact absurd rfl ht
  | cons c cs ih =>
    intro l t h ht
    by_cases hr : c = '\r'
    · subst hr
      cases cs with
      | nil => rw [takeLine_cr_nil] at h; cases h; exact absurd rfl ht
      | cons d rest =>
        by_cases hn : d = '\n'
        · subst hn
          rw [takeLine_cr_nl] at h
          cases h
          rw [getLast?_cons_ne_nil _ _ (by simp), getLast?_cons_ne_nil _ _ (by
            intro h0; rw [h0] at ht; exact ht rfl)]
        · rw [takeLine_cr_cons d rest hn] at h
          cases h
          rw [getLast?_cons_ne_nil _ _ (by simp)]
    · by_cases hn : c = '\n'
      · subst hn
        rw [takeLine_nl] at h
        cases h
        rw [getLast?_cons_ne_nil _ _ ht]
      · rw [takeLine_cons_of_ne c cs hr hn] at h
        have hcs : cs ≠ [] := by
          intro h0; subst h0
          simp [takeLine] at h
          exact ht h.2
        cases h
        rw [getLast?_cons_ne_nil _ _ hcs]
        exact ih (takeLine cs).1 (takeLine cs).2 rfl ht

theorem py_splitlines_last_empty : ∀ (N : Nat) (s : List Char), s.length ≤ N →
    (py_splitlines s).getLast? = some [] →
    s.getLast? = some '\n' ∨ s.getLast? = some '\r' := by
  intro N
  induction N with
  | zero =>
    intro s hs h
    have hnil : s = [] := by cases s with
      | nil => rfl
      | cons c cs => simp at hs
    subst hnil
    cases h
  | succ N ih =>
    intro s hs h
    cases s with
    | nil => cases h
    | cons c cs =>
      rw [py_splitlines_cons (c :: cs) (by simp)] at h
      by_cases hP : py_splitlines (takeLine (c :: cs)).2 = []
      · rw [hP] at h
        have hfst : (takeLine (c :: cs)).1 = [] :=
          Option.some.inj h
        have hsnd : (takeLine (c :: cs)).2 = [] := (py_splitlines_eq_nil _).mp hP
        by_cases hr : c = '\r'
        · subst hr
          cases cs with
          | nil => right; rfl
          | cons d rest =>
            by_cases hn : d = '\n'
            · subst hn
              rw [takeLine_cr_nl] at hsnd
              subst hsnd
              left; rfl
            · rw [takeLine_cr_cons d rest hn] at hsnd
              cases hsnd
        · by_cases hn : c = '\n'
          · subst hn
            rw [takeLine_nl] at hsnd
            subst hsnd
            left; rfl
          · rw [takeLine_cons_of_ne c cs hr hn] at hfst
            exact absurd hfst (List.cons_ne_nil _ _)
      · rw [getLast?_cons_ne_nil _ _ hP] at h
        have hsnd_ne : (takeLine (c :: cs)).2 ≠ [] := by
          intro h0; rw [h0] at hP; exact hP rfl
        have hlen : ((takeLine (c :: cs)).2).length ≤ N := by
          have := takeLine_snd_len cs c
          simp at hs
          omega
        have := ih (takeLine (c :: cs)).2 hlen h
        rw [takeLine_snd_getLast (c :: cs) (takeLine (c :: cs)).1 (takeLine (c :: cs)).2
          rfl hsnd_ne]
        exact this

theorem takeLine_decomp_no_cr : ∀ s : List Char, '\r' ∉ s →
    (takeLine s = (s, []) ∧ '\n' ∉ s) ∨
    (∃ t, s = (takeLine s).1 ++ '\n' :: t ∧ (takeLine s).2 = t) := by
  intro s
  induction s with
  | nil => intro _; left; exact ⟨rfl, by simp⟩
  | cons c cs ih =>
    intro hcr
    have hr : c ≠ '\r' := fun h => hcr (by simp [h])
    by_cases hn : c = '\n'
    · subst hn
      right
      exact ⟨cs, by rw [takeLine_nl]; simp, by rw [takeLine_nl]⟩
    · rcases ih (fun h => hcr (List.mem_cons_of_mem c h)) with ⟨h1, h2⟩ | ⟨t, h1, h2⟩
      · left
        constructor
        · rw [takeLine_cons_of_ne c cs hr hn, h1]
        · intro hmem
          rcases List.mem_cons.mp hmem with h | h
          · exact hn h.symm
          · exact h2 h
      · right
        refine ⟨t, ?_, ?_⟩
        · rw [takeLine_cons_of_ne c cs hr hn]
          show c :: cs = (c :: (takeLine cs).1) ++ '\n' :: t
          rw [List.cons_append, ← h1]
        · rw [takeLine_cons_of_ne c cs hr hn]
          exact h2

theorem joinLines_py_splitlines : ∀ (N : Nat) (s : List Char), s.length ≤ N → '\r' ∉ s →
    s.getLast? ≠ some '\n' → joinLines (py_splitlines s) = s := by
  intro N
  induction N with
  | zero =>
    intro s hs _ _
    have hnil : s = [] := by cases s with
      | nil => rfl
      | cons c cs => simp at hs
    subst hnil
    rfl
  | succ N ih =>
    intro s hs hcr hlast
    cases s with
    | nil => rfl
    | cons c cs =>
      rw [py_splitlines_cons (c :: cs) (by simp)]
      rcases takeLine_decomp_no_cr (c :: cs) hcr with ⟨h1, _⟩ | ⟨t, h1, h2⟩
      · rw [h1]
        show joinLines ((c :: cs) :: py_splitlines []) = c :: cs
        rfl
      · rw [h2]
        have ht_ne : t ≠ [] := by
          intro h0
          subst h0
          apply hlast
          rw [h1, List.getLast?_concat]
        have hcr_t : '\r' ∉ t := by
          intro hm
          apply hcr
          rw [h1]
          exact List.mem_append_right _ (List.mem_cons_of_mem '\n' hm)
        have hlast_t : t.getLast? ≠ some '\n' := by
          intro h0
          apply hlast
          rw [h1, getLast?_append_ne_nil _ ('\n' :: t) (by simp),
            getLast?_cons_ne_nil '\n' t ht_ne]
          exact h0
        have hlen_t : t.length ≤ N := by
          have hsl := takeLine_snd_len cs c
          rw [h2] at hsl
          simp at hs
          omega
        have hrec : joinLines (py_splitlines t) = t := ih t hlen_t hcr_t hlast_t
        have hsp_ne : py_splitlines t ≠ [] := by
          intro h0
          exact ht_ne ((py_splitlines_eq_nil t).mp h0)
        obtain ⟨x, xs, hx⟩ := List.exists_cons_of_ne_nil hsp_ne
        rw [hx]
        show (takeLine (c :: cs)).1 ++ '\n' :: joinLines (x :: xs) = c :: cs
        rw [← hx, hrec, ← h1]

theorem py_splitlines_no_break : ∀ (N : Nat) (s : List Char), s.length ≤ N →
    ∀ l ∈ py_splitlines s, '\n' ∉ l ∧ '\r' ∉ l := by
  intro N
  induction N with
  | zero =>
    intro s hs l hl
    have hnil : s = [] := by cases s with
      | nil => rfl
      | cons c cs => simp at hs
    subst hnil
    simp [py_splitlines] at hl
  | succ N ih =>
    intro s hs l hl
    cases s with
    | nil => simp [py_splitlines] at hl
    | cons c cs =>
      rw [py_splitlines_cons (c :: cs) (by simp)] at hl
      rcases List.mem_cons.mp hl with h | h
      · subst h; exact takeLine_fst_no_break (c :: cs)
      · exact ih (takeLine (c :: cs)).2
          (by have := takeLine_snd_len cs c; simp at hs; omega) l h

theorem isPrefixOf_append_self : ∀ (p t : List Char), p.isPrefixOf (p ++ t) = true := by
  intro p
  induction p with
  | nil => intro t; simp [List.isPrefixOf]
  | cons a as ih => intro t; simp [List.isPrefixOf, ih]

/-- Claim C2 (counterexample): the round-trip law fails byte-for-byte when
the original comment itself contains a line starting with the `%%%`
marker — `strip` removes it together with the added lines. -/
theorem strip_add_roundtrip_ce :
    strip_comment_fcatalog (add_comment_fcatalog "%%% x".data "k".data) = [] ∧
    strip_comment_fcatalog (add_comment_fcatalog "%%% x".data "k".data) ≠ "%%% x".data := by
  decide

/-- Claim C2 (amended): `strip_comment_fcatalog` after `add_comment_fcatalog`
reproduces the original comment byte-for-byte provided the comment has no
carriage return, does not end with a newline, and none of its lines starts
with the `%%%` marker. -/
theorem fcatalog_comment_roundtrip (C K : List Char)
    (h1 : '\r' ∉ C) (h2 : C.getLast? ≠ some '\n')
    (h3 : ∀ l ∈ py_splitlines C, FCATALOG_COMMENT_PREF.isPrefixOf l = false) :
    strip_comment_fcatalog (add_comment_fcatalog C K) = C := by
  unfold strip_comment_fcatalog add_comment_fcatalog
  have hbf : ∀ l ∈ (py_splitlines K).map (fun ln => FCATALOG_COMMENT_PREF ++ (' ' :: ln))
      ++ py_splitlines C, '\n' ∉ l ∧ '\r' ∉ l := by
    intro l hl
    rcases List.mem_append.mp hl with h | h
    · rcases List.mem_map.mp h with ⟨l₀, hl₀, rfl⟩
      have hk := py_splitlines_no_break K.length K le_rfl l₀ hl₀
      constructor
      · intro hm
        rcases List.mem_append.mp hm with hm | hm
        · simp [FCATALOG_COMMENT_PREF] at hm
        · rcases List.mem_cons.mp hm with hm | hm
          · cases hm
          · exact hk.1 hm
      · intro hm
        rcases List.mem_append.mp hm with hm | hm
        · simp [FCATALOG_COMMENT_PREF] at hm
        · rcases List.mem_cons.mp hm with hm | hm
          · cases hm
          · exact hk.2 hm
    · exact py_splitlines_no_break C.length C le_rfl l h
  have hlast : ((py_splitlines K).map (fun ln => FCATALOG_COMMENT_PREF ++ (' ' :: ln))
      ++ py_splitlines C).getLast? ≠ some [] := by
    by_cases hC : py_splitlines C = []
    · rw [hC, List.append_nil]
      intro hsome
      have hmem := mem_of_getLast?_some _ [] hsome
      rcases List.mem_map.mp hmem with ⟨l₀, _, heq⟩
      simp [FCATALOG_COMMENT_PREF] at heq
    · rw [getLast?_append_ne_nil _ _ hC]
      intro hsome
      rcases py_splitlines_last_empty C.length C le_rfl hsome with hnl | hcr
      · exact h2 hnl
      · exact h1 (mem_of_getLast?_some C '\r' hcr)
  rw [py_splitlines_joinLines _ hbf hlast, List.filter_append]
  have hmarked : ((py_splitlines K).map
      (fun ln => FCATALOG_COMMENT_PREF ++ (' ' :: ln))).filter
        (fun ln => !(FCATALOG_COMMENT_PREF.isPrefixOf ln)) = [] := by
    rw [List.filter_eq_nil_iff]
    intro a ha
    rcases List.mem_map.mp ha with ⟨l₀, _, rfl⟩
    simp [isPrefixOf_append_self FCATALOG_COMMENT_PREF (' ' :: l₀)]
  have hkept : (py_splitlines C).filter
      (fun ln => !(FCATALOG_COMMENT_PREF.isPrefixOf ln)) = py_splitlines C := by
    rw [List.filter_eq_self]
    intro a ha
    rw [h3 a ha]
    rfl
  rw [hmarked, hkept, List.nil_append]
  exact joinLines_py_splitlines C.length C le_rfl h1 h2

theorem fcatalog_comment_roundtrip_witness :
    ('\r' ∉ "hello\nworld".data ∧ "hello\nworld".data.getLast? ≠ some '\n' ∧
      ∀ l ∈ py_splitlines "hello\nworld".data, FCATALOG_COMMENT_PREF.isPrefixOf l = false) ∧
    strip_comment_fcatalog (add_comment_fcatalog "hello\nworld".data "parses HTTP".data) =
      "hello\nworld".data :=
  ⟨⟨by decide, by decide, by decide⟩,
   fcatalog_comment_roundtrip "hello\nworld".data "parses HTTP".data
     (by decide) (by decide) (by decide)⟩

/-- Claim C5: per-pair post-processing in `find_similars`: an empty match
list leaves the state untouched; otherwise only the first (rank-0) match
matters; a grade under the cut leaves the state untouched; otherwise the
function is renamed to the encoded catalog name and the catalog comment is
spliced in through the host comment writer. -/
theorem process_similar_policy (cut : Nat) (w : World) (a : Nat) (ms : List FSim) :
    (ms = [] → process_similar cut w (a, ms) = w) ∧
    (∀ m rest, ms = m :: rest →
      process_similar cut w (a, ms) = process_similar cut w (a, [m]) ∧
      (m.sim_grade < cut → process_similar cut w (a, ms) = w) ∧
      (cut ≤ m.sim_grade →
        (process_similar cut w (a, ms)).idb =
          idb_set_name w.idb a (make_fcatalog_name m.name m.sim_grade a) ∧
        (process_similar cut w (a, ms)).host_events =
          w.host_events ++
            [HostEvent.makeName a (make_fcatalog_name m.name m.sim_grade a),
             HostEvent.setComment a (add_comment_fcatalog [] m.comment)] ∧
        (process_similar cut w (a, ms)).db_events = w.db_events ∧
        (process_similar cut w (a, ms)).responses = w.responses)) := by
  constructor
  · intro h; subst h; rfl
  · intro m rest h
    subst h
    by_cases hg : m.sim_grade < cut
    · refine ⟨by simp [process_similar, hg], fun _ => by simp [process_similar, hg],
        fun hge => ?_⟩
      omega
    · refine ⟨by simp [process_similar, hg], fun hlt => absurd hlt hg, fun _ => ?_⟩
      refine ⟨?_, ?_, ?_, ?_⟩ <;>
        simp [process_similar, hg, MakeName, set_func_comment, get_func_comment,
          List.append_assoc]

theorem process_similar_policy_witness :
    (process_similar 8 ⟨[⟨8192, "sub_2000".data, [], 8304, 1, some [1]⟩], [], [], []⟩
        (8192, []) =
      ⟨[⟨8192, "sub_2000".data, [], 8304, 1, some [1]⟩], [], [], []⟩) ∧
    (process_similar 8 ⟨[⟨8192, "sub_2000".data, [], 8304, 1, some [1]⟩], [], [], []⟩
        (8192, [⟨"low".data, 3, "c".data⟩]) =
      ⟨[⟨8192, "sub_2000".data, [], 8304, 1, some [1]⟩], [], [], []⟩) ∧
    ((process_similar 8 ⟨[⟨8192, "sub_2000".data, [], 8304, 1, some [1]⟩], [], [], []⟩
        (8192, [⟨"httpParse".data, 10, "parses HTTP".data⟩])).idb =
      idb_set_name [⟨8192, "sub_2000".data, [], 8304, 1, some [1]⟩] 8192
        (make_fcatalog_name "httpParse".data 10 8192)) ∧
    ((process_similar 8 ⟨[⟨8192, "sub_2000".data, [], 8304, 1, some [1]⟩], [], [], []⟩
        (8192, [⟨"httpParse".data, 10, "parses HTTP".data⟩])).host_events =
      [HostEvent.makeName 8192 (make_fcatalog_name "httpParse".data 10 8192),
       HostEvent.setComment 8192 (add_comment_fcatalog [] "parses HTTP".data)]) :=
  ⟨(process_similar_policy 8 ⟨[⟨8192, "sub_2000".data, [], 8304, 1, some [1]⟩], [], [], []⟩
      8192 []).1 rfl,
   ((process_similar_policy 8 ⟨[⟨8192, "sub_2000".data, [], 8304, 1, some [1]⟩], [], [], []⟩
      8192 [⟨"low".data, 3, "c".data⟩]).2 ⟨"low".data, 3, "c".data⟩ [] rfl).2.1 (by decide),
   (((process_similar_policy 8 ⟨[⟨8192, "sub_2000".data, [], 8304, 1, some [1]⟩], [], [], []⟩
      8192 [⟨"httpParse".data, 10, "parses HTTP".data⟩]).2 ⟨"httpParse".data, 10,
        "parses HTTP".data⟩ [] rfl).2.2 (by decide)).1,
   (((process_similar_policy 8 ⟨[⟨8192, "sub_2000".data, [], 8304, 1, some [1]⟩], [], [], []⟩
      8192 [⟨"httpParse".data, 10, "parses HTTP".data⟩]).2 ⟨"httpParse".data, 10,
        "parses HTTP".data⟩ [] rfl).2.2 (by decide)).2.1⟩

theorem send_requests_ok : ∀ (l : List Nat) (w : World) (dataOf : Nat → List Nat),
    (∀ a ∈ l, get_func_data w.idb a = Except.ok (dataOf a)) →
    send_requests l w = (Except.ok (),
      { w with db_events :=
          w.db_events ++ l.map (fun a => DbMsg.requestSimilars (dataOf a) 1) }) := by
  intro l
  induction l with
  | nil => intro w dataOf _; simp [send_requests]
  | cons a rest ih =>
    intro w dataOf hd
    have ha := hd a (by simp)
    have hd' : ∀ b ∈ rest,
        get_func_data (request_similars w (dataOf a) 1).idb b = Except.ok (dataOf b) :=
      fun b hb => hd b (List.mem_cons_of_mem a hb)
    simp only [send_requests, ha]
    rw [ih (request_similars w (dataOf a) 1) dataOf hd']
    simp [request_similars, List.append_assoc]

theorem collect_responses_ok : ∀ (l : List Nat) (w : World),
    l.length ≤ w.responses.length →
    collect_responses l w = (Except.ok (l.zip (w.responses.take l.length)),
      { w with responses := w.responses.drop l.length,
               db_events := w.db_events
                 ++ (w.responses.take l.length).map DbMsg.responseSimilars }) := by
  intro l
  induction l with
  | nil => intro w _; simp [collect_responses]
  | cons a rest ih =>
    intro w hlen
    cases hresp : w.responses with
    | nil => rw [hresp] at hlen; simp at hlen
    | cons r rs =>
      have hstep : response_similars w = (Except.ok r,
          { w with responses := rs,
                   db_events := w.db_events ++ [DbMsg.responseSimilars r] }) := by
        simp [response_similars, hresp]
      have hlen' : rest.length ≤ rs.length := by
        rw [hresp] at hlen; simp at hlen; omega
      have hrec := ih
        { w with responses := rs, db_events := w.db_events ++ [DbMsg.responseSimilars r] }
        hlen'
      simp only [collect_responses, hstep, hrec]
      simp [hresp, List.append_assoc]

/-- Claim C6: the batch exchange sends one similarity request per function
in batch order, then (after all requests) reads exactly one response per
request in the same order, and pairs function `i` with response `i`
positionally. -/
theorem batch_similars_exchange (w : World) (l : List Nat) (dataOf : Nat → List Nat)
    (hd : ∀ a ∈ l, get_func_data w.idb a = Except.ok (dataOf a))
    (hr : l.length ≤ w.responses.length) :
    batch_similars w l =
      (Except.ok (l.zip (w.responses.take l.length)),
       { idb := w.idb,
         host_events := w.host_events,
         db_events := w.db_events ++ l.map (fun a => DbMsg.requestSimilars (dataOf a) 1)
           ++ (w.responses.take l.length).map DbMsg.responseSimilars,
         responses := w.responses.drop l.length }) := by
  have hsend := send_requests_ok l w dataOf hd
  have hcoll := collect_responses_ok l
    { w with db_events := w.db_events ++ l.map (fun a => DbMsg.requestSimilars (dataOf a) 1) }
    hr
  unfold batch_similars
  simp only [hsend, hcoll]

theorem batch_similars_exchange_witness :
    ((∀ a ∈ [1, 2],
        get_func_data
          (⟨[⟨1, "f".data, [], 97, 1, some [9]⟩, ⟨2, "g".data, [], 114, 1, some [7, 7]⟩],
            [], [], [[⟨"m".data, 12, "c".data⟩], []]⟩ : World).idb a =
          Except.ok (if a = 1 then [9] else [7, 7])) ∧
      ([1, 2] : List Nat).length ≤
        (⟨[⟨1, "f".data, [], 97, 1, some [9]⟩, ⟨2, "g".data, [], 114, 1, some [7, 7]⟩],
          [], [], [[⟨"m".data, 12, "c".data⟩], []]⟩ : World).responses.length) ∧
    batch_similars
        ⟨[⟨1, "f".data, [], 97, 1, some [9]⟩, ⟨2, "g".data, [], 114, 1, some [7, 7]⟩],
          [], [], [[⟨"m".data, 12, "c".data⟩], []]⟩ [1, 2] =
      (Except.ok [(1, [⟨"m".data, 12, "c".data⟩]), (2, [])],
       ⟨[⟨1, "f".data, [], 97, 1, some [9]⟩, ⟨2, "g".data, [], 114, 1, some [7, 7]⟩],
        [],
        [DbMsg.requestSimilars [9] 1, DbMsg.requestSimilars [7, 7] 1,
         DbMsg.responseSimilars [⟨"m".data, 12, "c".data⟩], DbMsg.responseSimilars []],
        []⟩) := by
  refine ⟨⟨by decide, by decide⟩, ?_⟩
  have h := batch_similars_exchange
    ⟨[⟨1, "f".data, [], 97, 1, some [9]⟩, ⟨2, "g".data, [], 114, 1, some [7, 7]⟩],
      [], [], [[⟨"m".data, 12, "c".data⟩], []]⟩ [1, 2]
    (fun a => if a = 1 then [9] else [7, 7]) (by decide) (by decide)
  rw [h]
  rfl

/-- Claim C3 (code bug): `commit_funcs` has no `try`/`finally`, so when a
fatal error is raised mid-loop the session close is skipped entirely: at
the failing input the wire trace contains no close message, while the
success path closes exactly once. -/
theorem commit_funcs_close_skipped_on_error :
    (commit_funcs ⟨[⟨4096, "parse_header".data, [], 4192, 1, none⟩], [], [], []⟩).1 =
      Except.error (Err.dataReadFailed 4096) ∧
    ((commit_funcs ⟨[⟨4096, "parse_header".data, [], 4192, 1, none⟩], [], [], []⟩).2).db_events.count
      DbMsg.close = 0 ∧
    ((commit_funcs ⟨[⟨4096, "parse_header".data, [], 4192, 1, some [1]⟩], [], [], []⟩).2).db_events =
      [DbMsg.addFunction "parse_header".data [] [1], DbMsg.close] := by
  decide

theorem funcCommentAt_idb_set_name (s : Idb) (a b : Nat) (nm : List Char) :
    funcCommentAt (idb_set_name s a nm) b = funcCommentAt s b := by
  unfold funcCommentAt idb_set_name get_func
  induction s with
  | nil => rfl
  | cons f t ih =>
    have haddr : (if (f.addr == a) = true then { f with name := nm } else f).addr = f.addr := by
      split <;> rfl
    have hcomm : (if (f.addr == a) = true then { f with name := nm } else f).comment =
        f.comment := by
      split <;> rfl
    simp only [List.map_cons, List.find?, haddr]
    by_cases hfb : (f.addr == b) = true
    · simp [hfb]
      split <;> rfl
    · rw [Bool.not_eq_true] at hfb
      simp only [hfb]
      exact ih

theorem process_similar_comments (cut : Nat) (w : World) (p : Nat × List FSim) (b : Nat) :
    funcCommentAt ((process_similar cut w p).idb) b = funcCommentAt w.idb b := by
  rcases p with ⟨a, ms⟩
  cases ms with
  | nil => rfl
  | cons m rest =>
    by_cases hg : m.sim_grade < cut
    · simp [process_similar, hg]
    · simp only [process_similar, if_neg hg, set_func_comment, MakeName]
      exact funcCommentAt_idb_set_name w.idb a b (make_fcatalog_name m.name m.sim_grade a)

theorem foldl_process_comments (cut : Nat) :
    ∀ (ps : List (Nat × List FSim)) (w : World) (b : Nat),
      funcCommentAt ((ps.foldl (process_similar cut) w).idb) b = funcCommentAt w.idb b := by
  intro ps
  induction ps with
  | nil => intro w b; rfl
  | cons p rest ih =>
    intro w b
    rw [List.foldl_cons, ih (process_similar cut w p) b, process_similar_comments]

theorem send_requests_idb : ∀ (l : List Nat) (w : World),
    ((send_requests l w).2).idb = w.idb := by
  intro l
  induction l with
  | nil => intro w; rfl
  | cons a rest ih =>
    intro w
    simp only [send_requests]
    cases get_func_data w.idb a with
    | error e => rfl
    | ok d => rw [ih (request_similars w d 1)]; rfl

theorem collect_responses_idb : ∀ (l : List Nat) (w : World),
    ((collect_responses l w).2).idb = w.idb := by
  intro l
  induction l with
  | nil => intro w; rfl
  | cons a rest ih =>
    intro w
    simp only [collect_responses]
    cases hresp : w.responses with
    | nil => simp [response_similars, hresp]
    | cons r rs =>
      simp only [response_similars, hresp]
      have hi := ih { w with responses := rs, db_events := w.db_events ++ [DbMsg.responseSimilars r] }
      revert hi
      cases collect_responses rest { w with responses := rs, db_events := w.db_events ++ [DbMsg.responseSimilars r] } with
      | mk res w'' =>
        intro hi
        cases res <;> simpa using hi

theorem batch_similars_idb (w : World) (l : List Nat) :
    ((batch_similars w l).2).idb = w.idb := by
  unfold batch_similars
  cases hsend : send_requests l w with
  | mk res w' =>
    have h1 := send_requests_idb l w
    rw [hsend] at h1
    cases res with
    | error e => exact h1
    | ok u => rw [collect_responses_idb l w']; exact h1

theorem find_loop_eq_error (similarity_cut batch_size : Nat) (addrs : List Nat) (w : World)
    (e : Err) (h : take_candidates w.idb addrs batch_size = Except.error e) :
    find_loop similarity_cut batch_size addrs w = (Except.error e, w) := by
  rw [find_loop.eq_def]
  split
  · rename_i heq
    rw [h] at heq
    cases heq
    rfl
  · rename_i heq
    rw [h] at heq
    cases heq
  · rename_i heq
    rw [h] at heq
    cases heq

theorem find_loop_eq_empty (similarity_cut batch_size : Nat) (addrs : List Nat) (w : World)
    (rem : List Nat) (h : take_candidates w.idb addrs batch_size = Except.ok ([], rem)) :
    find_loop similarity_cut batch_size addrs w = (Except.ok (), w) := by
  rw [find_loop.eq_def]
  split
  · rename_i heq
    rw [h] at heq
    cases heq
  · rfl
  · rename_i heq
    rw [h] at heq
    cases heq

theorem find_loop_eq_batch_error (similarity_cut batch_size : Nat) (addrs : List Nat)
    (w : World) (b : Nat) (blk rem : List Nat) (e : Err) (w' : World)
    (h : take_candidates w.idb addrs batch_size = Except.ok (b :: blk, rem))
    (hb : batch_similars w (b :: blk) = (Except.error e, w')) :
    find_loop similarity_cut batch_size addrs w = (Except.error e, w') := by
  rw [find_loop.eq_def]
  split
  · rename_i heq
    rw [h] at heq
    cases heq
  · rename_i heq
    rw [h] at heq
    cases heq
  · rename_i b1 blk1 rem1 heq
    rw [h] at heq
    cases heq
    rw [hb]

theorem find_loop_eq_batch_ok (similarity_cut batch_size : Nat) (addrs : List Nat)
    (w : World) (b : Nat) (blk rem : List Nat) (bsimilars : List (Nat × List FSim)) (w' : World)
    (h : take_candidates w.idb addrs batch_size = Except.ok (b :: blk, rem))
    (hb : batch_similars w (b :: blk) = (Except.ok bsimilars, w')) :
    find_loop similarity_cut batch_size addrs w =
      find_loop similarity_cut batch_size rem
        (bsimilars.foldl (process_similar similarity_cut) w') := by
  rw [find_loop.eq_def]
  split
  · rename_i heq
    rw [h] at heq
    cases heq
  · rename_i heq
    rw [h] at heq
    cases heq
  · rename_i b1 blk1 rem1 heq
    rw [h] at heq
    cases heq
    rw [hb]

theorem find_loop_comments (similarity_cut batch_size : Nat) :
    ∀ (addrs : List Nat) (w : World) (b : Nat),
      funcCommentAt (((find_loop similarity_cut batch_size addrs w).2).idb) b =
        funcCommentAt w.idb b := by
  intro addrs w
  induction addrs, w using find_loop.induct similarity_cut batch_size with
  | case1 addrs w e htc =>
    intro b
    rw [find_loop_eq_error similarity_cut batch_size addrs w e htc]
  | case2 addrs w snd htc =>
    intro b
    rw [find_loop_eq_empty similarity_cut batch_size addrs w snd htc]
  | case3 addrs w bb blk' rem htc e w' hbatch =>
    intro b
    rw [find_loop_eq_batch_error similarity_cut batch_size addrs w bb blk' rem e w' htc hbatch]
    have hb := batch_similars_idb w (bb :: blk')
    rw [hbatch] at hb
    simp only [funcCommentAt] at hb ⊢
    rw [hb]
  | case4 addrs w bb blk' rem htc bsimilars w' hbatch ih =>
    intro b
    rw [find_loop_eq_batch_ok similarity_cut batch_size addrs w bb blk' rem bsimilars w'
      htc hbatch]
    rw [ih b, foldl_process_comments]
    have hb := batch_similars_idb w (bb :: blk')
    rw [hbatch] at hb
    simp only [funcCommentAt] at hb ⊢
    rw [hb]

theorem find_similars_comments (similarity_cut batch_size : Nat) (w : World) (b : Nat) :
    funcCommentAt (((find_similars similarity_cut batch_size w).2).idb) b =
      funcCommentAt w.idb b := by
  unfold find_similars
  cases hloop : find_loop similarity_cut batch_size (w.idb.map Func.addr) w with
  | mk res w' =>
    have h := find_loop_comments similarity_cut batch_size (w.idb.map Func.addr) w b
    rw [hloop] at h
    cases res with
    | error e => exact h
    | ok u => simpa [db_close] using h

theorem clean_loop_comments : ∀ (addrs : List Nat) (w : World) (b : Nat),
    funcCommentAt ((clean_loop addrs w).idb) b = funcCommentAt w.idb b := by
  intro addrs
  induction addrs with
  | nil => intro w b; rfl
  | cons a rest ih =>
    intro w b
    by_cases hfc : is_func_fcatalog w.idb a
    · simp only [clean_loop, if_pos hfc]
      rw [ih]
      simp only [set_func_comment, MakeName]
      exact funcCommentAt_idb_set_name w.idb a b []
    · simp only [clean_loop, if_neg hfc]
      exact ih w b

theorem strip_comment_fcatalog_nil : strip_comment_fcatalog [] = [] := rfl

theorem commit_loop_comment_empty : ∀ (addrs : List Nat) (w : World)
    (n c : List Char) (d : List Nat),
    DbMsg.addFunction n c d ∈ ((commit_loop addrs w).2).db_events →
    DbMsg.addFunction n c d ∈ w.db_events ∨ c = [] := by
  intro addrs
  induction addrs with
  | nil => intro w n c d h; exact Or.inl h
  | cons a rest ih =>
    intro w n c d h
    rw [commit_loop] at h
    cases hcand : is_func_commit_candidate w.idb a with
    | error e =>
      rw [hcand] at h
      exact Or.inl h
    | ok cand =>
      rw [hcand] at h
      cases cand with
      | false => exact ih w n c d h
      | true =>
        cases hdata : get_func_data w.idb a with
        | error e =>
          rw [hdata] at h
          exact Or.inl h
        | ok func_data =>
          rw [hdata] at h
          rcases ih _ n c d h with hmem | hc
          · simp only [add_function, List.mem_append] at hmem
            rcases hmem with hmem | hmem
            · exact Or.inl hmem
            · have heq := List.mem_singleton.mp hmem
              simp only [get_func_comment, strip_comment_fcatalog_nil] at heq
              cases heq
              exact Or.inr rfl
          · exact Or.inr hc

/-- Claim C10: the comment accessors are stubs — `get_func_comment` always
returns the empty string and `set_func_comment` does not change the host
database or the session — so `find_similars` and `clean_idb` never change
any function's comment text, and every function commit sent by
`commit_funcs` carries the empty comment. -/
theorem comment_stubs_consequences :
    (∀ (s : Idb) (a : Nat), get_func_comment s a = []) ∧
    (∀ (w : World) (a : Nat) (c : List Char),
      (set_func_comment w a c).idb = w.idb ∧
      (set_func_comment w a c).db_events = w.db_events ∧
      (set_func_comment w a c).responses = w.responses) ∧
    (∀ (similarity_cut batch_size : Nat) (w : World) (b : Nat),
      funcCommentAt (((find_similars similarity_cut batch_size w).2).idb) b =
        funcCommentAt w.idb b) ∧
    (∀ (w : World) (b : Nat),
      funcCommentAt ((clean_idb w).idb) b = funcCommentAt w.idb b) ∧
    (∀ (w : World) (n c : List Char) (d : List Nat),
      DbMsg.addFunction n c d ∈ ((commit_funcs w).2).db_events →
      DbMsg.addFunction n c d ∈ w.db_events ∨ c = []) := by
  refine ⟨fun _ _ => rfl, fun w a c => ⟨rfl, rfl, rfl⟩,
    find_similars_comments, fun w b => clean_loop_comments (w.idb.map Func.addr) w b,
    ?_⟩
  intro w n c d h
  unfold commit_funcs at h
  cases hloop : commit_loop (w.idb.map Func.addr) w with
  | mk res w' =>
    have hall := commit_loop_comment_empty (w.idb.map Func.addr) w n c d
    rw [hloop] at h hall
    cases res with
    | error e => exact hall h
    | ok u =>
      simp only [db_close, List.mem_append] at h
      rcases h with h | h
      · exact hall h
      · cases List.mem_singleton.mp h

theorem comment_stubs_consequences_witness :
    DbMsg.addFunction "parse_header".data [] [1] ∈
        ((commit_funcs ⟨[⟨4096, "parse_header".data, [], 4192, 1, some [1]⟩],
          [], [], []⟩).2).db_events ∧
    (DbMsg.addFunction "parse_header".data [] [1] ∈
        (⟨[⟨4096, "parse_header".data, [], 4192, 1, some [1]⟩], [], [], []⟩ : World).db_events ∨
      ([] : List Char) = []) :=
  ⟨by decide,
   comment_stubs_consequences.2.2.2.2
     ⟨[⟨4096, "parse_header".data, [], 4192, 1, some [1]⟩], [], [], []⟩
     "parse_header".data [] [1] (by decide)⟩
